import Mathlib

/-!
# Verification of the admix-kit streaming reduction / association-test core

Shallow embedding of the core routines of `admix-kit`
(`admix/data/_geno.py`, `admix/data/_utils.py`, `admix/assoc/__init__.py`)
over exact arithmetic (`ℚ` for genotype values, `ℤ` for ancestry labels).

Modelling conventions:
* a dense matrix is a total function `ℕ → ℕ → α` together with explicit
  dimensions; only indices below the dimensions are ever read;
* a missing genotype call (NaN sentinel in the source) is `Option.none`;
* the dask chunk partition of the marker axis is a `List ℕ` of chunk sizes,
  turned into `(start, stop)` index pairs exactly as
  `indices = np.insert(np.cumsum(chunks), 0, 0)` does;
* external collaborators (scipy survival functions, statsmodels /
  `admixgwas` regression backends) are injected as function parameters,
  mirroring the spec's "injected regression backend" contract.
-/

namespace AdmixKit

/-- `(start, stop)` pairs of a chunk partition, from a running base offset:
the pairs `(indices[i], indices[i+1])` for `indices = [base, base+c₀, …]`.
Source: `_geno.py` `indices = np.insert(np.cumsum(chunks), 0, 0)`. -/
def chunkRanges (chunks : List ℕ) (base : ℕ) : List (ℕ × ℕ) :=
  match chunks with
  | [] => []
  | c :: rest => (base, base + c) :: chunkRanges rest (base + c)

/-- A chunk partition is valid for `nSnp` markers when the chunk sizes sum
to `nSnp` (dask chunks always satisfy this). -/
def validChunks (chunks : List ℕ) (nSnp : ℕ) : Prop :=
  chunks.sum = nSnp

instance (chunks : List ℕ) (nSnp : ℕ) : Decidable (validChunks chunks nSnp) := by
  unfold validChunks; infer_instance

/-- Row mean over the non-missing entries among columns `< nIndiv`
(`np.nanmean(mat, axis=1)` for one row).  An all-missing row yields `0`
(the source produces NaN there; the claims under study never touch that
case with a meaningful value). -/
def rowNanMean (row : ℕ → Option ℚ) (nIndiv : ℕ) : ℚ :=
  let vals := (List.range nIndiv).filterMap row
  vals.sum / vals.length

/-- `impute_with_mean(mat, inplace=True, axis=1)` from `_geno.py`:
every missing entry of a row is replaced by that row's `nanmean`; present
entries are untouched. -/
def impute_with_mean (mat : ℕ → ℕ → Option ℚ) (nIndiv : ℕ) : ℕ → ℕ → ℚ :=
  fun s i =>
    match mat s i with
    | some x => x
    | none => rowNanMean (mat s) nIndiv

/-- Materialize the chunk `geno[start:stop, :]` (`geno_chunk = geno[start:stop, :].compute()`):
row `s` of the chunk is row `start + s` of the full matrix. -/
def extractChunk (geno : ℕ → ℕ → Option ℚ) (start : ℕ) : ℕ → ℕ → Option ℚ :=
  fun s i => geno (start + s) i

/-- `geno_mult_mat(..., mat_dim="snp")` accumulator from `_geno.py`
(`impute_geno=True` path): per chunk `(start, stop)` the materialized chunk is
mean-imputed and `ret += geno_chunk.T @ mat[start:stop, :]`.
Entry `(i, r)` of a chunk's contribution is
`∑_{s ∈ [start, stop)} imputed[s-start, i] * mat[s, r]`. -/
def geno_mult_mat_snp (geno : ℕ → ℕ → Option ℚ) (mat : ℕ → ℕ → ℚ)
    (nIndiv : ℕ) (ranges : List (ℕ × ℕ)) : ℕ → ℕ → ℚ :=
  ranges.foldl
    (fun ret p =>
      ret + fun i r =>
        ∑ s ∈ Finset.Ico p.1 p.2,
          impute_with_mean (extractChunk geno p.1) nIndiv (s - p.1) i * mat s r)
    0

/-- `geno_mult_mat(..., mat_dim="indiv")` from `_geno.py`: per chunk the
mean-imputed chunk is multiplied on the right by `mat` and written into the
disjoint output slice, `ret[start:stop, :] = np.dot(geno_chunk, mat)`. -/
def geno_mult_mat_indiv (geno : ℕ → ℕ → Option ℚ) (mat : ℕ → ℕ → ℚ)
    (nIndiv : ℕ) (ranges : List (ℕ × ℕ)) : ℕ → ℕ → ℚ :=
  ranges.foldl
    (fun ret p =>
      fun s r =>
        if p.1 ≤ s ∧ s < p.2 then
          ∑ i ∈ Finset.range nIndiv,
            impute_with_mean (extractChunk geno p.1) nIndiv (s - p.1) i * mat i r
        else ret s r)
    0

section ChunkLemmas

variable {M : Type*} [AddCommMonoid M]

/-- Folding chunk contributions over a valid partition totals the
contribution of the whole covered range. -/
theorem foldl_chunkRanges_add (f : ℕ → M) (chunks : List ℕ) (base : ℕ) (init : M) :
    (chunkRanges chunks base).foldl
        (fun acc p => acc + ∑ s ∈ Finset.Ico p.1 p.2, f s) init
      = init + ∑ s ∈ Finset.Ico base (base + chunks.sum), f s := by
  induction chunks generalizing base init with
  | nil => simp [chunkRanges]
  | cons c rest ih =>
      simp only [chunkRanges, List.foldl_cons, List.sum_cons]
      rw [ih]
      rw [add_assoc]
      congr 1
      rw [← add_assoc base c rest.sum]
      exact Finset.sum_Ico_consecutive f
        (Nat.le_add_right base c) (Nat.le_add_right (base + c) rest.sum)

end ChunkLemmas

/-- Materializing a chunk and reading back row `s - start` recovers row `s`
of the full matrix: marker rows are never split by the marker-axis chunking. -/
theorem extractChunk_row (geno : ℕ → ℕ → Option ℚ) (a s : ℕ) (h : a ≤ s) :
    extractChunk geno a (s - a) = geno s := by
  funext i
  simp [extractChunk, Nat.add_sub_cancel' h]

/-- Chunk-local imputation of row `s` agrees with whole-matrix imputation of
row `s`: the chunk contains the marker's entire row of individuals. -/
theorem impute_chunk_eq_global (geno : ℕ → ℕ → Option ℚ) (nIndiv a s i : ℕ)
    (h : a ≤ s) :
    impute_with_mean (extractChunk geno a) nIndiv (s - a) i
      = impute_with_mean geno nIndiv s i := by
  simp only [impute_with_mean, extractChunk_row geno a s h]

/-- Closed form of the `mat_dim="snp"` accumulator over any chunk list
starting at `base`: the fold totals the per-marker contributions of the
covered range. -/
theorem geno_mult_mat_snp_go (geno : ℕ → ℕ → Option ℚ) (mat : ℕ → ℕ → ℚ)
    (nIndiv : ℕ) (chunks : List ℕ) (base : ℕ) (init : ℕ → ℕ → ℚ) :
    (chunkRanges chunks base).foldl
        (fun ret p =>
          ret + fun i r =>
            ∑ s ∈ Finset.Ico p.1 p.2,
              impute_with_mean (extractChunk geno p.1) nIndiv (s - p.1) i * mat s r)
        init
      = init + fun i r =>
          ∑ s ∈ Finset.Ico base (base + chunks.sum),
            impute_with_mean geno nIndiv s i * mat s r := by
  induction chunks generalizing base init with
  | nil =>
      funext i r
      simp [chunkRanges]
  | cons c rest ih =>
      simp only [chunkRanges, List.foldl_cons, List.sum_cons]
      rw [ih]
      funext i r
      simp only [Pi.add_apply, add_assoc]
      congr 1
      rw [show base + (c + rest.sum) = base + c + rest.sum from by omega]
      rw [← Finset.sum_Ico_consecutive
        (fun s => impute_with_mean geno nIndiv s i * mat s r)
        (Nat.le_add_right base c) (Nat.le_add_right (base + c) rest.sum)]
      congr 1
      refine Finset.sum_congr rfl fun s hs => ?_
      rw [impute_chunk_eq_global geno nIndiv base s i (Finset.mem_Ico.mp hs).1]

/-- The `mat_dim="snp"` accumulator over a valid partition equals the
unchunked per-marker sum. -/
theorem geno_mult_mat_snp_closed (geno : ℕ → ℕ → Option ℚ) (mat : ℕ → ℕ → ℚ)
    (nIndiv nSnp : ℕ) (chunks : List ℕ) (h : validChunks chunks nSnp) :
    geno_mult_mat_snp geno mat nIndiv (chunkRanges chunks 0)
      = fun i r =>
          ∑ s ∈ Finset.range nSnp, impute_with_mean geno nIndiv s i * mat s r := by
  unfold geno_mult_mat_snp
  rw [geno_mult_mat_snp_go geno mat nIndiv chunks 0 0]
  rw [validChunks] at h
  funext i r
  simp only [Pi.add_apply, Pi.zero_apply, zero_add, Nat.zero_add, h,
    Finset.range_eq_Ico]

/-- Closed form of the `mat_dim="indiv"` slice-writing loop: after the fold,
markers in the covered range hold their imputed dot product with `mat`,
markers outside are untouched. -/
theorem geno_mult_mat_indiv_go (geno : ℕ → ℕ → Option ℚ) (mat : ℕ → ℕ → ℚ)
    (nIndiv : ℕ) (chunks : List ℕ) (base : ℕ) (init : ℕ → ℕ → ℚ) :
    (chunkRanges chunks base).foldl
        (fun ret p =>
          fun s r =>
            if p.1 ≤ s ∧ s < p.2 then
              ∑ i ∈ Finset.range nIndiv,
                impute_with_mean (extractChunk geno p.1) nIndiv (s - p.1) i * mat i r
            else ret s r)
        init
      = fun s r =>
          if base ≤ s ∧ s < base + chunks.sum then
            ∑ i ∈ Finset.range nIndiv, impute_with_mean geno nIndiv s i * mat i r
          else init s r := by
  induction chunks generalizing base init with
  | nil =>
      funext s r
      simp only [chunkRanges, List.foldl_nil, List.sum_nil, Nat.add_zero]
      have : ¬(base ≤ s ∧ s < base) := by omega
      rw [if_neg this]
  | cons c rest ih =>
      simp only [chunkRanges, List.foldl_cons, List.sum_cons]
      rw [ih]
      funext s r
      by_cases h1 : base + c ≤ s ∧ s < base + c + rest.sum
      · rw [if_pos h1, if_pos (by omega)]
      · rw [if_neg h1]
        by_cases h2 : base ≤ s ∧ s < base + c
        · rw [if_pos h2, if_pos (by omega)]
          refine Finset.sum_congr rfl fun i _ => ?_
          rw [impute_chunk_eq_global geno nIndiv base s i h2.1]
        · rw [if_neg h2, if_neg (by omega)]

/-- The `mat_dim="indiv"` result over a valid partition equals the
unchunked per-marker result. -/
theorem geno_mult_mat_indiv_closed (geno : ℕ → ℕ → Option ℚ) (mat : ℕ → ℕ → ℚ)
    (nIndiv nSnp : ℕ) (chunks : List ℕ) (h : validChunks chunks nSnp) :
    geno_mult_mat_indiv geno mat nIndiv (chunkRanges chunks 0)
      = fun s r =>
          if s < nSnp then
            ∑ i ∈ Finset.range nIndiv, impute_with_mean geno nIndiv s i * mat i r
          else 0 := by
  unfold geno_mult_mat_indiv
  rw [geno_mult_mat_indiv_go geno mat nIndiv chunks 0 0]
  rw [validChunks] at h
  funext s r
  simp only [h, Nat.zero_add, Nat.zero_le, true_and, Pi.zero_apply]

/-- The blockwise `helper` inside `allele_per_anc` (`_geno.py`): channel
`a < n_anc` of `(s, i)` accumulates, over the two haplotypes, the allele
dosage of every haplotype whose local-ancestry label equals `a`
(`apa[:, :, i_anc][haplo_lanc == i_anc] += haplo_hap[haplo_lanc == i_anc]`).
Haplotypes whose label matches no channel contribute nowhere; there is no
label-domain check in the source. -/
def allele_per_anc_helper (geno : ℕ → ℕ → Fin 2 → ℚ) (lanc : ℕ → ℕ → Fin 2 → ℤ)
    (n_anc : ℕ) : ℕ → ℕ → ℕ → ℚ :=
  fun s i a =>
    if a < n_anc then ∑ h : Fin 2, if lanc s i h = (a : ℤ) then geno s i h else 0
    else 0

/-- `allele_per_anc(geno, lanc, n_anc, center)` from `_geno.py`.  The only
value-level assertion in the source that is expressible in this model is
`assert center is False`; the remaining assertions are shape/chunking checks
that are enforced by the types of this embedding.  No assertion inspects the
ancestry labels themselves. -/
def allele_per_anc (geno : ℕ → ℕ → Fin 2 → ℚ) (lanc : ℕ → ℕ → Fin 2 → ℤ)
    (n_anc : ℕ) (center : Bool) : Except String (ℕ → ℕ → ℕ → ℚ) :=
  if center then Except.error "center=True should not be used"
  else Except.ok (allele_per_anc_helper geno lanc n_anc)

/-- `admix_grm(geno, lanc, n_anc=2, snp_prior_var)` from `_geno.py`: streams
`allele_per_anc` chunks, scales each marker row by `sqrt(snp_prior_var)`
(`np.sqrt` is external, injected here as `sqrtFn`), and accumulates the three
kinship matrices `G1 += a1ᵀa1/S`, `G2 += a2ᵀa2/S`, `G12 += a1ᵀa2/S` where
`S` is the prior-variance total.  `n_anc = 2` is asserted in the source and
fixed here. -/
def admix_grm (geno : ℕ → ℕ → Fin 2 → ℚ) (lanc : ℕ → ℕ → Fin 2 → ℤ)
    (nSnp : ℕ) (sqrtFn : ℚ → ℚ) (snp_prior_var : ℕ → ℚ)
    (ranges : List (ℕ × ℕ)) :
    ((ℕ → ℕ → ℚ) × (ℕ → ℕ → ℚ) × (ℕ → ℕ → ℚ)) :=
  let apa := allele_per_anc_helper geno lanc 2
  let S := ∑ s ∈ Finset.range nSnp, snp_prior_var s
  let a := fun s i c => apa s i c * sqrtFn (snp_prior_var s)
  ranges.foldl
    (fun G p =>
      (G.1 + fun i j => (∑ s ∈ Finset.Ico p.1 p.2, a s i 0 * a s j 0) / S,
       G.2.1 + fun i j => (∑ s ∈ Finset.Ico p.1 p.2, a s i 1 * a s j 1) / S,
       G.2.2 + fun i j => (∑ s ∈ Finset.Ico p.1 p.2, a s i 0 * a s j 1) / S))
    (0, 0, 0)

/-- The scaled allele-per-ancestry row used by `admix_grm`. -/
def admix_grm_scaled (geno : ℕ → ℕ → Fin 2 → ℚ) (lanc : ℕ → ℕ → Fin 2 → ℤ)
    (sqrtFn : ℚ → ℚ) (snp_prior_var : ℕ → ℚ) : ℕ → ℕ → ℕ → ℚ :=
  fun s i c => allele_per_anc_helper geno lanc 2 s i c * sqrtFn (snp_prior_var s)

/-- Closed form of `admix_grm` over a valid chunk partition: each of the
three accumulators totals the per-marker scaled outer products over the whole
marker range, so the chunk partition is irrelevant. -/
theorem admix_grm_closed (geno : ℕ → ℕ → Fin 2 → ℚ) (lanc : ℕ → ℕ → Fin 2 → ℤ)
    (nSnp : ℕ) (sqrtFn : ℚ → ℚ) (snp_prior_var : ℕ → ℚ)
    (chunks : List ℕ) (h : validChunks chunks nSnp) :
    admix_grm geno lanc nSnp sqrtFn snp_prior_var (chunkRanges chunks 0)
      = (fun i j => ∑ s ∈ Finset.range nSnp,
            admix_grm_scaled geno lanc sqrtFn snp_prior_var s i 0
              * admix_grm_scaled geno lanc sqrtFn snp_prior_var s j 0
              / ∑ t ∈ Finset.range nSnp, snp_prior_var t,
         fun i j => ∑ s ∈ Finset.range nSnp,
            admix_grm_scaled geno lanc sqrtFn snp_prior_var s i 1
              * admix_grm_scaled geno lanc sqrtFn snp_prior_var s j 1
              / ∑ t ∈ Finset.range nSnp, snp_prior_var t,
         fun i j => ∑ s ∈ Finset.range nSnp,
            admix_grm_scaled geno lanc sqrtFn snp_prior_var s i 0
              * admix_grm_scaled geno lanc sqrtFn snp_prior_var s j 1
              / ∑ t ∈ Finset.range nSnp, snp_prior_var t) := by
  set a := admix_grm_scaled geno lanc sqrtFn snp_prior_var with ha
  set S := ∑ t ∈ Finset.range nSnp, snp_prior_var t with hS
  have hfun :
      (fun (G : (ℕ → ℕ → ℚ) × (ℕ → ℕ → ℚ) × (ℕ → ℕ → ℚ)) (p : ℕ × ℕ) =>
        (G.1 + fun i j => (∑ s ∈ Finset.Ico p.1 p.2, a s i 0 * a s j 0) / S,
         G.2.1 + fun i j => (∑ s ∈ Finset.Ico p.1 p.2, a s i 1 * a s j 1) / S,
         G.2.2 + fun i j => (∑ s ∈ Finset.Ico p.1 p.2, a s i 0 * a s j 1) / S))
      = fun G p => G + ∑ s ∈ Finset.Ico p.1 p.2,
          ((fun i j => a s i 0 * a s j 0 / S),
           (fun i j => a s i 1 * a s j 1 / S),
           (fun i j => a s i 0 * a s j 1 / S)) := by
    funext G p
    refine Prod.ext ?_ (Prod.ext ?_ ?_)
    all_goals
      simp only [Prod.fst_add, Prod.snd_add, Prod.fst_sum, Prod.snd_sum]
      funext i j
      simp only [Pi.add_apply, Finset.sum_apply, Finset.sum_div]
  have hgrm :
      admix_grm geno lanc nSnp sqrtFn snp_prior_var (chunkRanges chunks 0)
        = (chunkRanges chunks 0).foldl
            (fun G p => G + ∑ s ∈ Finset.Ico p.1 p.2,
              ((fun i j => a s i 0 * a s j 0 / S),
               (fun i j => a s i 1 * a s j 1 / S),
               (fun i j => a s i 0 * a s j 1 / S)))
            (0, 0, 0) := by
    unfold admix_grm
    rw [← hfun]
    rfl
  rw [hgrm, foldl_chunkRanges_add _ chunks 0 (0, 0, 0)]
  rw [validChunks] at h
  refine Prod.ext ?_ (Prod.ext ?_ ?_)
  all_goals
    funext i j
    simp only [Prod.fst_add, Prod.snd_add, Prod.fst_sum, Prod.snd_sum,
      Pi.add_apply, Pi.zero_apply, Finset.sum_apply, Nat.zero_add, h,
      Finset.range_eq_Ico, zero_add]

/-- Summing an indicator-selected value over the channel range `[0, n)`
collapses to a domain test on the label. -/
theorem sum_range_label (n : ℕ) (L : ℤ) (g : ℚ) :
    ∑ a ∈ Finset.range n, (if L = (a : ℤ) then g else 0)
      = if 0 ≤ L ∧ L < (n : ℤ) then g else 0 := by
  induction n with
  | zero =>
      simp only [Finset.range_zero, Finset.sum_empty]
      rw [if_neg (by omega)]
  | succ n ih =>
      rw [Finset.sum_range_succ, ih]
      by_cases h1 : 0 ≤ L ∧ L < (n : ℤ)
      · rw [if_pos h1, if_neg (by omega), if_pos (by push_cast; omega), add_zero]
      · rw [if_neg h1]
        by_cases h2 : L = (n : ℤ)
        · rw [if_pos h2, if_pos (by omega), zero_add]
        · rw [if_neg h2, if_neg (by push_cast at h1 ⊢; omega), add_zero]

/-! ## Local-ancestry imputation (`impute_lanc`, `_utils.py`)

The embedding models one individual (the pandas operations are columnwise
independent across individuals) with genomic position doubling as the marker
identifier (marker ids map one-to-one to positions on the single shared
chromosome).  Ancestry labels are `ℤ`; a missing table cell (NaN) is `none`.
-/

/-- `np.where(refPos < x)[0][-1]`: index of the last reference marker with
position strictly below `x`; `none` models the `IndexError` NumPy raises on
an empty index array. -/
def lastIdxLt (refPos : List ℤ) (x : ℤ) : Option ℕ :=
  ((List.range refPos.length).filter (fun k => refPos.getD k 0 < x)).getLast?

/-- `np.where(refPos > x)[0][0]`: index of the first reference marker with
position strictly above `x`. -/
def firstIdxGt (refPos : List ℤ) (x : ℤ) : Option ℕ :=
  ((List.range refPos.length).filter (fun k => x < refPos.getD k 0)).head?

/-- Row positions of the working DataFrame: the first-margin reference
marker, the target markers in order, the last-margin reference marker
(`pd.concat([df_ref_margin.iloc[[0],:], df_imputed, df_ref_margin.iloc[[-1],:]])`). -/
def lanc_row_positions (m1 m2 : ℤ) (tgtPos : List ℤ) : List ℤ :=
  m1 :: (tgtPos ++ [m2])

/-- Row values after the margin/inside fill
(`df_imputed.loc[dset_ref_subset.snp.values, ...] = ...`): a row carries the
reference label of its position when that position is a reference-subset
marker, `none` (NaN) otherwise. -/
def lanc_row_values (subPos subLab : List ℤ) (rowPos : List ℤ) : List (Option ℤ) :=
  rowPos.map fun p => ((subPos.zip subLab).find? (fun q => q.1 = p)).map Prod.snd

/-- Largest filled row index `≤ i` (the left neighbor scipy's nearest-kind
interpolation compares against). -/
def prevFilled (rows : List (Option ℤ)) : ℕ → Option ℕ
  | 0 => if (rows.getD 0 none).isSome then some 0 else none
  | i + 1 => if (rows.getD (i + 1) none).isSome then some (i + 1) else prevFilled rows i

/-- Auxiliary upward search with explicit fuel. -/
def nextFilledAux (rows : List (Option ℤ)) : ℕ → ℕ → Option ℕ
  | _, 0 => none
  | i, fuel + 1 =>
      if (rows.getD i none).isSome then some i else nextFilledAux rows (i + 1) fuel

/-- Smallest filled row index `≥ i`. -/
def nextFilled (rows : List (Option ℤ)) (i : ℕ) : Option ℕ :=
  nextFilledAux rows i (rows.length - i)

/-- One cell of `df.reset_index().interpolate(method="nearest")`: a filled
cell keeps its value; an interior NaN cell takes the value of the nearer of
its two filled neighbors **by row index** (ties toward the earlier row, as
scipy's `kind="nearest"` rounds down); NaN cells with a filled neighbor on
one side only stay NaN (no extrapolation). -/
def interpNearestRow (rows : List (Option ℤ)) (i : ℕ) : Option ℤ :=
  match rows.getD i none with
  | some v => some v
  | none =>
      match prevFilled rows i, nextFilled rows i with
      | some p, some q =>
          if i - p ≤ q - i then rows.getD p none else rows.getD q none
      | _, _ => none

/-- `interpolate(method="nearest")` over the whole row sequence. -/
def interpolate_nearest (rows : List (Option ℤ)) : List (Option ℤ) :=
  (List.range rows.length).map (interpNearestRow rows)

/-- One haplotype track of `impute_lanc` (`_utils.py`): locate the reference
margin indices (`np.where(...)[-1]` / `np.where(...)[0]`, `IndexError` when
empty), slice the reference subset, build the margin-padded row frame, fill
values at reference-subset positions (pandas `.loc` raises `KeyError` when a
subset marker is absent from the frame), interpolate NaN rows by nearest row
index, and read back the target rows. -/
def impute_lanc_track (refPos refLab tgtPos : List ℤ) :
    Except String (List (Option ℤ)) :=
  match tgtPos.head?, tgtPos.getLast? with
  | some t0, some tn =>
      match lastIdxLt refPos t0, firstIdxGt refPos tn with
      | some k0, some k1 =>
          let subPos := (refPos.drop k0).take (k1 + 1 - k0)
          let subLab := (refLab.drop k0).take (k1 + 1 - k0)
          match subPos.head?, subPos.getLast? with
          | some m1, some m2 =>
              let rowPos := lanc_row_positions m1 m2 tgtPos
              if subPos.all (fun p => rowPos.contains p) then
                let filled := interpolate_nearest (lanc_row_values subPos subLab rowPos)
                Except.ok ((filled.drop 1).take tgtPos.length)
              else Except.error "KeyError"
          | _, _ => Except.error "IndexError"
      | _, _ => Except.error "IndexError"
  | _, _ => Except.error "IndexError"

/-- `impute_lanc` for one individual: the `for ploidy_i in range(2)` loop,
each haplotype imputed independently from its own reference track. -/
def impute_lanc (refPos : List ℤ) (refLab : Fin 2 → List ℤ) (tgtPos : List ℤ) :
    Except String (Fin 2 → List (Option ℤ)) :=
  match impute_lanc_track refPos (refLab 0) tgtPos,
      impute_lanc_track refPos (refLab 1) tgtPos with
  | Except.ok a, Except.ok b => Except.ok (fun h => if h = 0 then a else b)
  | Except.error e, _ => Except.error e
  | _, Except.error e => Except.error e

/-- Nearest-reference-marker label **by genomic position**, as the spec
describes the imputation rule (stated for comparison with the row-index
behaviour of the code). -/
def nearest_position_label (refPos refLab : List ℤ) (x : ℤ) : Option ℤ :=
  ((refPos.zip refLab).argmin (fun q => |q.1 - x|)).map Prod.snd

/-! ## Association testing (`assoc/__init__.py`)

The regression backends are external collaborators (statsmodels, scipy and
the `admixgwas` fast native solvers — spec §6): they are injected as the
fields of `Backends` and assumed deterministic.  Modelled from the spec: the
fast native solvers return one statistic per marker variable-group
(spec §4.3, "one p-value per marker"), so `linear_f_test` / `logistic_lrt`
are injected as per-marker functions of the marker's genetic columns. -/

/-- Result of one statsmodels fit: coefficients, per-coefficient p-values,
log-likelihood, model degrees of freedom. -/
structure ModelResult where
  params : ℕ → ℚ
  pvalues : ℕ → ℚ
  llf : ℚ
  df_model : ℚ

/-- `family` argument of `_block_test`. -/
inductive Family where
  | linear
  | logistic
deriving DecidableEq

/-- The injected external backends of `_block_test`:
`regFit design pheno start_params` is `sm.OLS(...).fit` / `sm.Logit(...).fit`;
`linearF` / `logisticLrt` are the per-marker `admixgwas` statistics;
`chi2sf x df` is `scipy.stats.chi2.sf`; `fsf x dfn dfd` is `scipy.stats.f.sf`. -/
structure Backends where
  regFit : (ℕ → ℕ → ℚ) → (ℕ → ℚ) → Option (ℕ → ℚ) → ModelResult
  linearF : (ℕ → ℕ → ℚ) → (ℕ → ℕ → ℚ) → (ℕ → ℚ) → ℕ → List ℕ → ℚ
  logisticLrt : (ℕ → ℕ → ℚ) → (ℕ → ℕ → ℚ) → (ℕ → ℚ) → ℕ → List ℕ → ℕ → ℚ → ℚ
  chi2sf : ℚ → ℚ → ℚ
  fsf : ℚ → ℚ → ℚ → ℚ

/-- The indices of the reduced design: non-tested genetic columns followed by
the covariate columns
(`reduced_index = [i for i in range(var_size) if i not in test_vars] ++ arange(var_size, var_size + n_cov)`). -/
def reduced_index (var_size nCov : ℕ) (test_vars : List ℕ) : List ℕ :=
  ((List.range var_size).filter (fun i => !test_vars.contains i))
    ++ List.range' var_size nCov

/-- The p-value `_block_test` computes for one marker whose `var_size`
genetic columns are `g`: the per-`i` body of the statsmodels loop
(`design[:, 0:var_size] = var[:, i*var_size:(i+1)*var_size]`, fit, single
tested variable → its coefficient p-value, several → `chi2.sf` of the
log-likelihood-ratio statistic with the `df_model` difference), and on the
fast path the scipy tail probability of the per-marker `admixgwas`
statistic: `f.sf(f_stat, len(test_vars), n_indiv - n_cov - var_size)` for the
linear family, `chi2.sf(2 * lrt_diff, var_size)` for the logistic family. -/
def marker_pvalue (B : Backends) (nIndiv nCov : ℕ) (cov : ℕ → ℕ → ℚ)
    (pheno : ℕ → ℚ) (var_size : ℕ) (test_vars : List ℕ) (fast : Bool)
    (family : Family) (maxIter : ℕ) (tol : ℚ) (g : ℕ → ℕ → ℚ) : ℚ :=
  if fast then
    match family with
    | Family.linear =>
        B.fsf (B.linearF g cov pheno var_size test_vars)
          (test_vars.length : ℚ) ((nIndiv : ℚ) - nCov - var_size)
    | Family.logistic =>
        B.chi2sf (2 * B.logisticLrt g cov pheno var_size test_vars maxIter tol)
          (var_size : ℚ)
  else
    let design := fun r c =>
      if c < var_size then g r c
      else if c < var_size + nCov then cov r (c - var_size) else 0
    let model := B.regFit design pheno none
    if test_vars.length = 1 then model.pvalues test_vars.headI
    else
      let ridx := reduced_index var_size nCov test_vars
      let rdesign := fun r c =>
        if c < ridx.length then design r (ridx.getD c 0) else 0
      let startp := fun c =>
        if c < ridx.length then model.params (ridx.getD c 0) else 0
      let reduced := B.regFit rdesign pheno (some startp)
      B.chi2sf (-2 * (reduced.llf - model.llf)) (model.df_model - reduced.df_model)

/-- `_block_test` (`assoc/__init__.py`): one p-value per marker
variable-group of the block, `n_var = var.shape[1] // var_size` groups, group
`i` being columns `[i*var_size, (i+1)*var_size)` of the block's variable
matrix. -/
def _block_test (B : Backends) (nIndiv : ℕ) (var : ℕ → ℕ → ℚ) (nVarCols : ℕ)
    (cov : ℕ → ℕ → ℚ) (nCov : ℕ) (pheno : ℕ → ℚ) (var_size : ℕ)
    (test_vars : List ℕ) (fast : Bool) (family : Family) (maxIter : ℕ)
    (tol : ℚ) : List ℚ :=
  (List.range (nVarCols / var_size)).map fun i =>
    marker_pvalue B nIndiv nCov cov pheno var_size test_vars fast family
      maxIter tol (fun r c => var r (i * var_size + c))

/-- Association methods dispatched by `marginal`. -/
inductive Method where
  | ATT
  | TRACTOR
  | ADM
  | SNP1
  | ASE
deriving DecidableEq

/-- Variable construction of `marginal`: for each method, the interleaved
variable matrix (`n_indiv` rows, `n_snp * var_size` columns), `var_size` and
`test_vars`.  `allele_per_anc` is invoked with `n_anc = 2` (two-way
admixture, the only case `marginal`'s local-ancestry recipes support). -/
def marginal_var (geno : ℕ → ℕ → Fin 2 → ℚ) (lanc : ℕ → ℕ → Fin 2 → ℤ) :
    Method → ((ℕ → ℕ → ℚ) × ℕ × List ℕ)
  | Method.ATT => (fun i c => geno c i 0 + geno c i 1, 1, [0])
  | Method.TRACTOR =>
      (fun i c =>
        match c % 3 with
        | 0 => allele_per_anc_helper geno lanc 2 (c / 3) i 0
        | 1 => allele_per_anc_helper geno lanc 2 (c / 3) i 1
        | _ => ((lanc (c / 3) i 0 + lanc (c / 3) i 1 : ℤ) : ℚ),
        3, [0, 1])
  | Method.SNP1 =>
      (fun i c =>
        match c % 2 with
        | 0 => geno (c / 2) i 0 + geno (c / 2) i 1
        | _ => ((lanc (c / 2) i 0 + lanc (c / 2) i 1 : ℤ) : ℚ),
        2, [0])
  | Method.ASE =>
      (fun i c =>
        match c % 2 with
        | 0 => allele_per_anc_helper geno lanc 2 (c / 2) i 0
        | _ => allele_per_anc_helper geno lanc 2 (c / 2) i 1,
        2, [0, 1])
  | Method.ADM => (fun i c => ((lanc c i 0 + lanc c i 1 : ℤ) : ℚ), 1, [0])

/-- Covariates with the prepended intercept column
(`cov = np.hstack((np.ones((n_indiv, 1)), cov))`, or `np.ones((n_indiv, 1))`). -/
def marginal_cov (covOpt : Option ((ℕ → ℕ → ℚ) × ℕ)) : (ℕ → ℕ → ℚ) × ℕ :=
  match covOpt with
  | some (cov, nCov0) => (fun r c => if c = 0 then 1 else cov r (c - 1), nCov0 + 1)
  | none => (fun _ _ => 1, 1)

/-- The SNP-block `while` loop of `marginal`
(`while snp_start < n_snp: snp_stop = min(snp_start + block_size, n_snp); …;
snp_start += block_size`), with explicit fuel: `none` models the loop still
running when the fuel is exhausted (with `block_size = 0` the loop never
terminates). -/
def marginal_loop (B : Backends) (nIndiv : ℕ) (varFn : ℕ → ℕ → ℚ)
    (cov : ℕ → ℕ → ℚ) (nCov : ℕ) (pheno : ℕ → ℚ) (var_size : ℕ)
    (test_vars : List ℕ) (fast : Bool) (family : Family) (nSnp bs : ℕ) :
    ℕ → ℕ → Option (List ℚ)
  | 0, start => if start < nSnp then none else some []
  | fuel + 1, start =>
      if start < nSnp then
        let stop := min (start + bs) nSnp
        let pv := _block_test B nIndiv
          (fun r c => varFn r (start * var_size + c)) ((stop - start) * var_size)
          cov nCov pheno var_size test_vars fast family 100 (1 / 1000000)
        (marginal_loop B nIndiv varFn cov nCov pheno var_size test_vars fast
            family nSnp bs fuel (start + bs)).map (fun rest => pv ++ rest)
      else some []

/-- `marginal` (`assoc/__init__.py`): build the method's variable matrix,
prepend the intercept to the covariates, split the `n_snp` markers into
blocks of `block_size = n_snp // n_block`, run `_block_test` per block and
concatenate (`np.concatenate(pvalues)`).  Fuel `nSnp` suffices for every
terminating execution (each iteration advances `snp_start` by
`block_size ≥ 1`). -/
def marginal (B : Backends) (nIndiv : ℕ) (geno : ℕ → ℕ → Fin 2 → ℚ)
    (lanc : ℕ → ℕ → Fin 2 → ℤ) (pheno : ℕ → ℚ)
    (covOpt : Option ((ℕ → ℕ → ℚ) × ℕ)) (method : Method) (family : Family)
    (fast : Bool) (nBlock nSnp : ℕ) : Option (List ℚ) :=
  let mv := marginal_var geno lanc method
  let mc := marginal_cov covOpt
  marginal_loop B nIndiv mv.1 mc.1 mc.2 pheno mv.2.1 mv.2.2 fast family nSnp
    (nSnp / nBlock) nSnp 0

/-- With a positive block size and enough fuel, the block loop terminates and
returns the per-marker p-values of `[start, nSnp)` in marker order: the block
decomposition disappears. -/
theorem marginal_loop_eq (B : Backends) (nIndiv : ℕ) (varFn : ℕ → ℕ → ℚ)
    (cov : ℕ → ℕ → ℚ) (nCov : ℕ) (pheno : ℕ → ℚ) (var_size : ℕ)
    (test_vars : List ℕ) (fast : Bool) (family : Family) (nSnp bs : ℕ)
    (hvs : 0 < var_size) (hbs : 1 ≤ bs) :
    ∀ fuel start, nSnp ≤ start + fuel * bs →
      marginal_loop B nIndiv varFn cov nCov pheno var_size test_vars fast
          family nSnp bs fuel start
        = some ((List.range' start (nSnp - start)).map fun s =>
            marker_pvalue B nIndiv nCov cov pheno var_size test_vars fast
              family 100 (1 / 1000000)
              (fun r c => varFn r (s * var_size + c))) := by
  intro fuel
  induction fuel with
  | zero =>
      intro start h
      have hge : ¬ start < nSnp := by omega
      rw [show nSnp - start = 0 from by omega]
      simp [marginal_loop, hge]
  | succ fuel ih =>
      intro start h
      by_cases hlt : start < nSnp
      · unfold marginal_loop
        rw [if_pos hlt, ih (start + bs)
          (by
            have hmul : (fuel + 1) * bs = bs + fuel * bs := by ring
            omega)]
        simp only [Option.map_some']
        congr 1
        set n1 := min (start + bs) nSnp - start with hn1
        have hdiv : n1 * var_size / var_size = n1 := Nat.mul_div_cancel n1 hvs
        unfold _block_test
        rw [hdiv]
        have hgrp : ∀ i : ℕ,
            (fun r c => varFn r (start * var_size + (i * var_size + c)))
              = fun r c => varFn r ((start + i) * var_size + c) := by
          intro i
          funext r c
          congr 1
          ring
        have hblock :
            ((List.range n1).map fun i =>
              marker_pvalue B nIndiv nCov cov pheno var_size test_vars fast
                family 100 (1 / 1000000)
                (fun r c => varFn r (start * var_size + (i * var_size + c))))
            = (List.range' start n1).map fun s =>
                marker_pvalue B nIndiv nCov cov pheno var_size test_vars fast
                  family 100 (1 / 1000000)
                  (fun r c => varFn r (s * var_size + c)) := by
          rw [List.range'_eq_map_range, List.map_map]
          refine List.map_congr_left fun i _ => ?_
          rw [Function.comp_apply, hgrp i]
        rw [hblock, ← List.map_append]
        congr 1
        rcases le_or_lt (start + bs) nSnp with hc | hc
        · have hbseq : n1 = bs := by omega
          rw [hbseq]
          have happ := List.range'_append start bs (nSnp - (start + bs)) 1
          simp only [one_mul] at happ
          rw [happ]
          congr 1
          omega
        · rw [show nSnp - (start + bs) = 0 from by omega]
          rw [List.range'_zero, List.append_nil]
          congr 1
          omega
      · unfold marginal_loop
        rw [if_neg hlt, show nSnp - start = 0 from by omega]
        simp

/-- With `block_size = 0` (more blocks requested than markers) the loop never
advances: it is still running after any amount of fuel. -/
theorem marginal_loop_stuck (B : Backends) (nIndiv : ℕ) (varFn : ℕ → ℕ → ℚ)
    (cov : ℕ → ℕ → ℚ) (nCov : ℕ) (pheno : ℕ → ℚ) (var_size : ℕ)
    (test_vars : List ℕ) (fast : Bool) (family : Family) (nSnp : ℕ)
    (hn : 0 < nSnp) :
    ∀ fuel, marginal_loop B nIndiv varFn cov nCov pheno var_size test_vars
        fast family nSnp 0 fuel 0 = none := by
  intro fuel
  induction fuel with
  | zero => simp [marginal_loop, hn]
  | succ fuel ih =>
      unfold marginal_loop
      rw [if_pos hn]
      simp only [Nat.add_zero, ih, Option.map_none']

/-- Every method builds at least one genetic column per marker. -/
theorem marginal_var_size_pos (geno : ℕ → ℕ → Fin 2 → ℚ)
    (lanc : ℕ → ℕ → Fin 2 → ℤ) (method : Method) :
    0 < (marginal_var geno lanc method).2.1 := by
  cases method <;> simp [marginal_var]

/-- For `1 ≤ n_block ≤ n_snp`, `marginal` terminates within its fuel and
returns exactly the markerwise p-value map in marker order, independently of
`n_block`. -/
theorem marginal_eq_pvalue_map (B : Backends) (nIndiv : ℕ)
    (geno : ℕ → ℕ → Fin 2 → ℚ) (lanc : ℕ → ℕ → Fin 2 → ℤ) (pheno : ℕ → ℚ)
    (covOpt : Option ((ℕ → ℕ → ℚ) × ℕ)) (method : Method) (family : Family)
    (fast : Bool) (nBlock nSnp : ℕ) (h1 : 1 ≤ nBlock) (h2 : nBlock ≤ nSnp) :
    marginal B nIndiv geno lanc pheno covOpt method family fast nBlock nSnp
      = some ((List.range nSnp).map fun s =>
          marker_pvalue B nIndiv (marginal_cov covOpt).2 (marginal_cov covOpt).1
            pheno (marginal_var geno lanc method).2.1
            (marginal_var geno lanc method).2.2 fast family 100 (1 / 1000000)
            (fun r c =>
              (marginal_var geno lanc method).1 r
                (s * (marginal_var geno lanc method).2.1 + c))) := by
  have hbs : 1 ≤ nSnp / nBlock := (Nat.one_le_div_iff (by omega)).mpr h2
  have hfuel : nSnp ≤ 0 + nSnp * (nSnp / nBlock) := by
    have := Nat.le_mul_of_pos_right nSnp (show 0 < nSnp / nBlock from hbs)
    omega
  unfold marginal
  rw [marginal_loop_eq B nIndiv _ _ _ pheno _ _ fast family nSnp (nSnp / nBlock)
    (marginal_var_size_pos geno lanc method) hbs nSnp 0 hfuel]
  rw [Nat.sub_zero, ← List.range_eq_range']

/-- The row frame `impute_lanc` interpolates over, given the reference
margin indices `k0, k1` and margin positions `m1, m2`. -/
def lanc_frame (refPos refLab tgtPos : List ℤ) (k0 k1 : ℕ) (m1 m2 : ℤ) :
    List (Option ℤ) :=
  lanc_row_values ((refPos.drop k0).take (k1 + 1 - k0))
    ((refLab.drop k0).take (k1 + 1 - k0)) (lanc_row_positions m1 m2 tgtPos)

/-- `prevFilled rows i` returns the largest filled row index `≤ i`. -/
theorem prevFilled_spec (rows : List (Option ℤ)) :
    ∀ i p, prevFilled rows i = some p →
      p ≤ i ∧ (rows.getD p none).isSome = true
        ∧ ∀ j, j ≤ i → (rows.getD j none).isSome = true → j ≤ p := by
  intro i
  induction i with
  | zero =>
      intro p hp
      unfold prevFilled at hp
      by_cases h : (rows.getD 0 none).isSome = true
      · rw [if_pos h, Option.some_inj] at hp
        exact ⟨hp ▸ le_refl 0, hp ▸ h, fun j hj _ => hp ▸ hj⟩
      · rw [if_neg h] at hp
        exact absurd hp (by simp)
  | succ i ih =>
      intro p hp
      unfold prevFilled at hp
      by_cases h : (rows.getD (i + 1) none).isSome = true
      · rw [if_pos h, Option.some_inj] at hp
        exact ⟨hp ▸ le_refl _, hp ▸ h, fun j hj _ => hp ▸ hj⟩
      · rw [if_neg h] at hp
        obtain ⟨h1, h2, h3⟩ := ih p hp
        refine ⟨by omega, h2, fun j hj hfj => ?_⟩
        rcases Nat.lt_succ_iff_lt_or_eq.mp (Nat.lt_succ_of_le hj) with hlt | heq
        · exact h3 j (by omega) hfj
        · exact absurd (heq ▸ hfj) h

/-- `nextFilledAux` finds the smallest filled row index in `[i, i + fuel)`. -/
theorem nextFilledAux_spec (rows : List (Option ℤ)) :
    ∀ fuel i q, nextFilledAux rows i fuel = some q →
      i ≤ q ∧ (rows.getD q none).isSome = true
        ∧ ∀ j, i ≤ j → j < q → (rows.getD j none).isSome = false := by
  intro fuel
  induction fuel with
  | zero => intro i q hq; exact absurd hq (by simp [nextFilledAux])
  | succ fuel ih =>
      intro i q hq
      unfold nextFilledAux at hq
      by_cases h : (rows.getD i none).isSome = true
      · rw [if_pos h, Option.some_inj] at hq
        exact ⟨hq ▸ le_refl i, hq ▸ h, fun j h1 h2 => absurd (hq ▸ h2) (by omega)⟩
      · rw [if_neg h] at hq
        obtain ⟨h1, h2, h3⟩ := ih (i + 1) q hq
        refine ⟨by omega, h2, fun j hj1 hj2 => ?_⟩
        rcases Nat.eq_or_lt_of_le hj1 with heq | hlt
        · exact heq ▸ Bool.not_eq_true _ ▸ (by simpa using h)
        · exact h3 j hlt hj2

/-- `nextFilled rows i` returns the smallest filled row index `≥ i`
(indices beyond the list are never filled, `getD` defaulting to `none`). -/
theorem nextFilled_spec (rows : List (Option ℤ)) (i q : ℕ)
    (h : nextFilled rows i = some q) :
    i ≤ q ∧ (rows.getD q none).isSome = true
      ∧ ∀ j, i ≤ j → (rows.getD j none).isSome = true → q ≤ j := by
  obtain ⟨h1, h2, h3⟩ := nextFilledAux_spec rows (rows.length - i) i q h
  refine ⟨h1, h2, fun j hj hfj => ?_⟩
  by_contra hlt
  rw [h3 j hj (by omega)] at hfj
  exact Bool.false_ne_true hfj

/-- A NaN row with filled rows on both sides receives, under
`interpNearestRow`, the value of a filled row at minimal **row-index
distance** from it. -/
theorem interpNearestRow_nearest (rows : List (Option ℤ)) (i : ℕ)
    (hnone : rows.getD i none = none) (p q : ℕ)
    (hp : prevFilled rows i = some p) (hq : nextFilled rows i = some q) :
    ∃ j, (rows.getD j none).isSome = true
      ∧ interpNearestRow rows i = rows.getD j none
      ∧ ∀ r, (rows.getD r none).isSome = true → Nat.dist i j ≤ Nat.dist i r := by
  obtain ⟨hp1, hp2, hp3⟩ := prevFilled_spec rows i p hp
  obtain ⟨hq1, hq2, hq3⟩ := nextFilled_spec rows i q hq
  have hneq : ∀ r, (rows.getD r none).isSome = true → r ≠ i := by
    intro r hr he
    rw [he, hnone] at hr
    exact Bool.false_ne_true hr
  have hval : interpNearestRow rows i
      = if i - p ≤ q - i then rows.getD p none else rows.getD q none := by
    unfold interpNearestRow
    rw [hnone, hp, hq]
  rw [hval]
  by_cases hc : i - p ≤ q - i
  · rw [if_pos hc]
    refine ⟨p, hp2, rfl, fun r hr => ?_⟩
    rcases le_or_lt r i with h1 | h1
    · have := hp3 r h1 hr
      have := hneq r hr
      simp only [Nat.dist]; omega
    · have := hq3 r (by omega) hr
      simp only [Nat.dist]; omega
  · rw [if_neg hc]
    refine ⟨q, hq2, rfl, fun r hr => ?_⟩
    rcases le_or_lt r i with h1 | h1
    · have := hp3 r h1 hr
      have := hneq r hr
      simp only [Nat.dist]; omega
    · have := hq3 r (by omega) hr
      simp only [Nat.dist]; omega

/-- A filled row keeps its value under `interpNearestRow`. -/
theorem interpNearestRow_filled (rows : List (Option ℤ)) (i : ℕ) (v : ℤ)
    (hv : rows.getD i none = some v) : interpNearestRow rows i = some v := by
  unfold interpNearestRow
  rw [hv]

/-- Reading `interpolate_nearest` inside the frame is `interpNearestRow`. -/
theorem interpolate_nearest_getD (rows : List (Option ℤ)) (i : ℕ)
    (hi : i < rows.length) :
    (interpolate_nearest rows).getD i none = interpNearestRow rows i := by
  unfold interpolate_nearest
  rw [List.getD_eq_getElem?_getD, List.getElem?_map]
  simp [List.getElem?_range hi]

end AdmixKit

namespace AdmixKitClaims

open AdmixKit

/-- **C1**: the final accumulator of the mean-imputing multiply-accumulate
(`geno_mult_mat`, both the `mat_dim="snp"` running-sum branch and the
`mat_dim="indiv"` slice-writing branch) and of the ancestry-specific kinship
reduction (`admix_grm`) is independent of the chunk partition of the marker
axis: any two valid partitions produce the same result, exactly, in exact
(rational) arithmetic, for every genotype input including inputs with
missing (`none`) values. -/
theorem C1_chunk_partition_invariance
    (geno : ℕ → ℕ → Option ℚ) (mat matI : ℕ → ℕ → ℚ) (nIndiv nSnp : ℕ)
    (geno3 : ℕ → ℕ → Fin 2 → ℚ) (lanc : ℕ → ℕ → Fin 2 → ℤ)
    (sqrtFn : ℚ → ℚ) (snp_prior_var : ℕ → ℚ)
    (chunks1 chunks2 : List ℕ)
    (h1 : validChunks chunks1 nSnp) (h2 : validChunks chunks2 nSnp) :
    geno_mult_mat_snp geno mat nIndiv (chunkRanges chunks1 0)
        = geno_mult_mat_snp geno mat nIndiv (chunkRanges chunks2 0)
      ∧ geno_mult_mat_indiv geno matI nIndiv (chunkRanges chunks1 0)
        = geno_mult_mat_indiv geno matI nIndiv (chunkRanges chunks2 0)
      ∧ admix_grm geno3 lanc nSnp sqrtFn snp_prior_var (chunkRanges chunks1 0)
        = admix_grm geno3 lanc nSnp sqrtFn snp_prior_var (chunkRanges chunks2 0) := by
  refine ⟨?_, ?_, ?_⟩
  · rw [geno_mult_mat_snp_closed geno mat nIndiv nSnp chunks1 h1,
      geno_mult_mat_snp_closed geno mat nIndiv nSnp chunks2 h2]
  · rw [geno_mult_mat_indiv_closed geno matI nIndiv nSnp chunks1 h1,
      geno_mult_mat_indiv_closed geno matI nIndiv nSnp chunks2 h2]
  · rw [admix_grm_closed geno3 lanc nSnp sqrtFn snp_prior_var chunks1 h1,
      admix_grm_closed geno3 lanc nSnp sqrtFn snp_prior_var chunks2 h2]

/-- Witness for C1 at a concrete input with a missing genotype call:
partitions `[2]` and `[1, 1]` of a 2-marker axis. -/
theorem C1_chunk_partition_invariance_witness :
    validChunks [2] 2 ∧ validChunks [1, 1] 2 ∧
      (geno_mult_mat_snp (fun s i => if s = 0 ∧ i = 0 then none else some ((s : ℚ) + i))
          (fun s r => (s : ℚ) + r) 2 (chunkRanges [2] 0)
        = geno_mult_mat_snp (fun s i => if s = 0 ∧ i = 0 then none else some ((s : ℚ) + i))
          (fun s r => (s : ℚ) + r) 2 (chunkRanges [1, 1] 0)
      ∧ geno_mult_mat_indiv (fun s i => if s = 0 ∧ i = 0 then none else some ((s : ℚ) + i))
          (fun i r => (i : ℚ) * r) 2 (chunkRanges [2] 0)
        = geno_mult_mat_indiv (fun s i => if s = 0 ∧ i = 0 then none else some ((s : ℚ) + i))
          (fun i r => (i : ℚ) * r) 2 (chunkRanges [1, 1] 0)
      ∧ admix_grm (fun s i h => (s : ℚ) + i + (h : ℕ)) (fun _ _ h => ((h : ℕ) : ℤ))
          2 id (fun _ => 1) (chunkRanges [2] 0)
        = admix_grm (fun s i h => (s : ℚ) + i + (h : ℕ)) (fun _ _ h => ((h : ℕ) : ℤ))
          2 id (fun _ => 1) (chunkRanges [1, 1] 0)) :=
  ⟨by decide, by decide,
    C1_chunk_partition_invariance _ _ _ 2 2 _ _ id _ [2] [1, 1] (by decide) (by decide)⟩

/-- **C4, counterexample**: an out-of-domain ancestry label (here `5` with
`n_anc = 2`) does not make `allele_per_anc` fail; the call returns a result
in which the haplotype's dosage is simply absent from every channel (both
channels are `0` although the true allele count is `2`). -/
theorem C4_counterexample :
    allele_per_anc (fun _ _ _ => 1) (fun _ _ _ => 5) 2 false
        = Except.ok (allele_per_anc_helper (fun _ _ _ => 1) (fun _ _ _ => 5) 2)
      ∧ allele_per_anc_helper (fun _ _ _ => 1) (fun _ _ _ => 5) 2 0 0 0 = 0
      ∧ allele_per_anc_helper (fun _ _ _ => 1) (fun _ _ _ => 5) 2 0 0 1 = 0
      ∧ (fun (_ _ : ℕ) (_ : Fin 2) => (1 : ℚ)) 0 0 0
          + (fun (_ _ : ℕ) (_ : Fin 2) => (1 : ℚ)) 0 0 1 = 2 := by
  refine ⟨rfl, ?_, ?_, by norm_num⟩ <;>
    simp [allele_per_anc_helper, Fin.sum_univ_two]

/-- **C4, amended**: `allele_per_anc` performs no ancestry-label domain
check: with `center = False` it always returns a result, and every haplotype
whose local-ancestry label lies outside `[0, n_anc)` is silently left
uncounted — the channel total at each `(marker, indiv)` equals the allele
dosage summed over the in-domain haplotypes only. -/
theorem C4_no_label_check (geno : ℕ → ℕ → Fin 2 → ℚ) (lanc : ℕ → ℕ → Fin 2 → ℤ)
    (n_anc : ℕ) (s i : ℕ) :
    allele_per_anc geno lanc n_anc false
        = Except.ok (allele_per_anc_helper geno lanc n_anc)
      ∧ ∑ a ∈ Finset.range n_anc, allele_per_anc_helper geno lanc n_anc s i a
          = ∑ h : Fin 2,
              if 0 ≤ lanc s i h ∧ lanc s i h < (n_anc : ℤ) then geno s i h else 0 := by
  refine ⟨rfl, ?_⟩
  unfold allele_per_anc_helper
  rw [Finset.sum_congr rfl
    (fun a ha => if_pos (Finset.mem_range.mp ha))]
  rw [Finset.sum_comm]
  refine Finset.sum_congr rfl fun h _ => ?_
  exact sum_range_label n_anc (lanc s i h) (geno s i h)

/-- **C5**: with `n_anc = 2` and fully labeled ancestry (every label is `0`
or `1`), the two channels of `allele_per_anc` sum to the plain allele count
over both haplotypes at every marker and individual. -/
theorem C5_channels_sum_to_allele_count (geno : ℕ → ℕ → Fin 2 → ℚ)
    (lanc : ℕ → ℕ → Fin 2 → ℤ)
    (hl : ∀ s i h, lanc s i h = 0 ∨ lanc s i h = 1) (s i : ℕ) :
    allele_per_anc_helper geno lanc 2 s i 0 + allele_per_anc_helper geno lanc 2 s i 1
      = geno s i 0 + geno s i 1 := by
  unfold allele_per_anc_helper
  rw [if_pos (by norm_num), if_pos (by norm_num), ← Finset.sum_add_distrib]
  have : ∀ h : Fin 2,
      ((if lanc s i h = ((0 : ℕ) : ℤ) then geno s i h else 0)
        + if lanc s i h = ((1 : ℕ) : ℤ) then geno s i h else 0) = geno s i h := by
    intro h
    rcases hl s i h with h0 | h1
    · rw [h0]; norm_num
    · rw [h1]; norm_num
  rw [Finset.sum_congr rfl fun h _ => this h, Fin.sum_univ_two]

/-- Witness for C5 at a concrete fully-labeled input. -/
theorem C5_channels_sum_to_allele_count_witness :
    (∀ s i (h : Fin 2), (fun (_ _ : ℕ) (h : Fin 2) => ((h : ℕ) : ℤ)) s i h = 0
        ∨ (fun (_ _ : ℕ) (h : Fin 2) => ((h : ℕ) : ℤ)) s i h = 1)
      ∧ allele_per_anc_helper (fun s i h => (s : ℚ) + i + 2 * (h : ℕ))
            (fun _ _ h => ((h : ℕ) : ℤ)) 2 0 1 0
          + allele_per_anc_helper (fun s i h => (s : ℚ) + i + 2 * (h : ℕ))
            (fun _ _ h => ((h : ℕ) : ℤ)) 2 0 1 1
        = (fun s i (h : Fin 2) => (s : ℚ) + i + 2 * (h : ℕ)) 0 1 0
          + (fun s i (h : Fin 2) => (s : ℚ) + i + 2 * (h : ℕ)) 0 1 1 :=
  ⟨fun _ _ h => by fin_cases h <;> simp,
    C5_channels_sum_to_allele_count _ _ (fun _ _ h => by fin_cases h <;> simp) 0 1⟩

/-- **C6**: in `geno_mult_mat` with imputation enabled, the value entering
the accumulated product for position `(a + s, i)` of chunk `[a, b)` — which
is `impute_with_mean (extractChunk geno a) nIndiv s i` by definition of
`geno_mult_mat_snp` / `geno_mult_mat_indiv` — satisfies: a non-missing entry
is used unchanged; a missing entry is replaced by the mean of the non-missing
calls for that marker; and the value depends only on genotype data of the
current chunk (two genotype matrices agreeing on the chunk's rows produce the
same imputed value), never on other chunks. -/
theorem C6_chunk_local_mean_imputation (geno geno' : ℕ → ℕ → Option ℚ)
    (nIndiv a b s i : ℕ) (hs : a + s < b)
    (hagree : ∀ t j, a + t < b → geno (a + t) j = geno' (a + t) j) :
    (∀ x, geno (a + s) i = some x →
        impute_with_mean (extractChunk geno a) nIndiv s i = x)
      ∧ (geno (a + s) i = none →
          impute_with_mean (extractChunk geno a) nIndiv s i
            = rowNanMean (geno (a + s)) nIndiv)
      ∧ impute_with_mean (extractChunk geno a) nIndiv s i
          = impute_with_mean (extractChunk geno' a) nIndiv s i := by
  have hrow : extractChunk geno a s = geno (a + s) := rfl
  refine ⟨?_, ?_, ?_⟩
  · intro x hx
    simp only [impute_with_mean, hrow, hx]
  · intro hx
    simp only [impute_with_mean, hrow, hx]
  · have hrow' : geno (a + s) = geno' (a + s) :=
      funext fun j => hagree s j hs
    simp only [impute_with_mean, hrow, extractChunk]
    rw [hrow']
    rfl

/-- Witness for C6: chunk `[0, 2)` of a 2×2 genotype matrix with a missing
call at `(0, 0)`. -/
theorem C6_chunk_local_mean_imputation_witness :
    (0 + 0 < 2)
      ∧ ((fun (s i : ℕ) => if s = 0 ∧ i = 0 then none else some ((s : ℚ) + i)) (0 + 0) 0
            = none →
          impute_with_mean
              (extractChunk (fun (s i : ℕ) => if s = 0 ∧ i = 0 then none
                else some ((s : ℚ) + i)) 0) 2 0 0
            = rowNanMean
                ((fun (s i : ℕ) => if s = 0 ∧ i = 0 then none
                  else some ((s : ℚ) + i)) (0 + 0))
                2) :=
  ⟨by decide,
    (C6_chunk_local_mean_imputation
      (fun (s i : ℕ) => if s = 0 ∧ i = 0 then none else some ((s : ℚ) + i))
      (fun (s i : ℕ) => if s = 0 ∧ i = 0 then none else some ((s : ℚ) + i))
      2 0 2 0 0 (by decide) (fun _ _ _ => rfl)).2.1⟩

/-- `np.var(m, axis=0)` on an `nRows × n` matrix: the population variance of
each column across rows — one value per column (per individual when `m` is a
`(markers, individuals)` genotype chunk). -/
def npVar_axis0 (m : ℕ → ℕ → ℚ) (nRows : ℕ) : ℕ → ℚ :=
  fun i =>
    (∑ s ∈ Finset.range nRows,
        (m s i - (∑ t ∈ Finset.range nRows, m t i) / nRows) ^ 2) / nRows

/-- Per-marker variance as the spec and the source docstring describe it
("the variance of each SNP"): the population variance of marker row `s`
across the `nIndiv` individuals (`np.var(chunk, axis=1)`). -/
def snp_variance_spec (m : ℕ → ℕ → ℚ) (nIndiv : ℕ) : ℕ → ℚ :=
  fun s =>
    (∑ i ∈ Finset.range nIndiv,
        (m s i - (∑ j ∈ Finset.range nIndiv, m s j) / nIndiv) ^ 2) / nIndiv

/-- The `return_snp_var=True` side output of `geno_mult_mat` (`_geno.py`):
per chunk the source executes `snp_var[start:stop] = np.var(geno_chunk, axis=0)`.
The right-hand side has one entry per individual while the slot has one entry
per marker of the chunk, so the NumPy assignment broadcasts only when
`n_indiv` equals the chunk length (entry `s` then receives column `s - start`'s
per-individual variance) or `n_indiv = 1`; otherwise it raises a broadcast
`ValueError`, modelled as `Except.error`. -/
def geno_mult_mat_snp_var (geno : ℕ → ℕ → Option ℚ) (nIndiv : ℕ) :
    List (ℕ × ℕ) → (ℕ → ℚ) → Except String (ℕ → ℚ)
  | [], acc => Except.ok acc
  | p :: rest, acc =>
      let v := npVar_axis0 (impute_with_mean (extractChunk geno p.1) nIndiv)
        (p.2 - p.1)
      if nIndiv = p.2 - p.1 then
        geno_mult_mat_snp_var geno nIndiv rest
          (fun s => if p.1 ≤ s ∧ s < p.2 then v (s - p.1) else acc s)
      else if nIndiv = 1 then
        geno_mult_mat_snp_var geno nIndiv rest
          (fun s => if p.1 ≤ s ∧ s < p.2 then v 0 else acc s)
      else Except.error "could not broadcast input array"

/-- **C7, code evidence**: `return_snp_var=True` does not produce per-marker
variances.  On a 2-marker × 3-individual chunk the assignment
`snp_var[start:stop] = np.var(geno_chunk, axis=0)` fails with a broadcast
error (3 per-individual values into 2 marker slots), and on a 2×2 chunk —
where the shapes happen to coincide — the stored value for marker 0 is the
per-individual variance `1/4`, not the marker's variance across individuals,
which is `1`. -/
theorem C7_snp_var_not_per_marker :
    geno_mult_mat_snp_var
        (fun s i => some ((s : ℚ) + 10 * i)) 3 (chunkRanges [2] 0) (fun _ => 0)
        = Except.error "could not broadcast input array"
      ∧ (geno_mult_mat_snp_var
            (fun s i => some ((s : ℚ) + 2 * i)) 2 (chunkRanges [2] 0) (fun _ => 0)).map
          (fun f => f 0)
          = Except.ok (1 / 4)
      ∧ snp_variance_spec
          (impute_with_mean (fun s i => some ((s : ℚ) + 2 * i)) 2) 2 0 = 1
      ∧ (1 / 4 : ℚ) ≠ 1 := by
  refine ⟨rfl, ?_, ?_, by norm_num⟩
  · show Except.ok _ = _
    congr 1
    simp only [chunkRanges]
    norm_num [geno_mult_mat_snp_var, npVar_axis0, impute_with_mean, extractChunk,
      Finset.sum_range_succ]
  · norm_num [snp_variance_spec, impute_with_mean, Finset.sum_range_succ]

/-- **C8, counterexample**: `impute_lanc` does not use genomic position.
Reference markers at positions `[90, 100, 500, 510]` with labels
`[0, 0, 1, 1]`, target positions `[100, 110, 120, 500]`: the target marker at
position `120` is at genomic distance `20` from the label-`0` reference
marker `100` and `380` from the label-`1` reference marker `500`, so
nearest-by-position gives label `0`; the code assigns label `1` (row
distances in the margin-padded frame are `2` vs `1`). -/
theorem C8_counterexample :
    (impute_lanc [90, 100, 500, 510] (fun _ => [0, 0, 1, 1])
          [100, 110, 120, 500]).map (fun f => f 0)
        = Except.ok [some 0, some 0, some 1, some 1]
      ∧ nearest_position_label [90, 100, 500, 510] [0, 0, 1, 1] 120 = some 0
      ∧ (some (1 : ℤ)) ≠ some 0 := by
  refine ⟨by rfl, by rfl, by decide⟩

/-- **C8, amended**: whenever the reference-margin lookups succeed, the
imputed track is the nearest-**row-index** interpolation of the margin-padded
frame (margin rows plus target markers, labels filled at positions that are
reference-subset markers): target marker `k` reads frame row `k + 1`; a
label-carrying frame row keeps its label; a NaN frame row between filled rows
receives the label of a filled row at minimal row-index distance — not the
label of the nearest reference marker by genomic position.  Haplotypes are
imputed independently. -/
theorem C8_nearest_is_row_index (refPos refLab tgtPos : List ℤ)
    (t0 tn : ℤ) (k0 k1 : ℕ) (m1 m2 : ℤ)
    (h0 : tgtPos.head? = some t0) (hn : tgtPos.getLast? = some tn)
    (hk0 : lastIdxLt refPos t0 = some k0) (hk1 : firstIdxGt refPos tn = some k1)
    (hm1 : ((refPos.drop k0).take (k1 + 1 - k0)).head? = some m1)
    (hm2 : ((refPos.drop k0).take (k1 + 1 - k0)).getLast? = some m2)
    (hkey : ((refPos.drop k0).take (k1 + 1 - k0)).all
        (fun p => (lanc_row_positions m1 m2 tgtPos).contains p) = true) :
    impute_lanc_track refPos refLab tgtPos
        = Except.ok
            (((interpolate_nearest (lanc_frame refPos refLab tgtPos k0 k1 m1 m2)).drop 1).take
              tgtPos.length)
      ∧ (∀ k, k + 1 < (lanc_frame refPos refLab tgtPos k0 k1 m1 m2).length →
          k < tgtPos.length →
          (((interpolate_nearest (lanc_frame refPos refLab tgtPos k0 k1 m1 m2)).drop 1).take
              tgtPos.length).getD k none
            = interpNearestRow (lanc_frame refPos refLab tgtPos k0 k1 m1 m2) (k + 1))
      ∧ (∀ i v, (lanc_frame refPos refLab tgtPos k0 k1 m1 m2).getD i none = some v →
          interpNearestRow (lanc_frame refPos refLab tgtPos k0 k1 m1 m2) i = some v)
      ∧ (∀ i p q, (lanc_frame refPos refLab tgtPos k0 k1 m1 m2).getD i none = none →
          prevFilled (lanc_frame refPos refLab tgtPos k0 k1 m1 m2) i = some p →
          nextFilled (lanc_frame refPos refLab tgtPos k0 k1 m1 m2) i = some q →
          ∃ j, ((lanc_frame refPos refLab tgtPos k0 k1 m1 m2).getD j none).isSome = true
            ∧ interpNearestRow (lanc_frame refPos refLab tgtPos k0 k1 m1 m2) i
                = (lanc_frame refPos refLab tgtPos k0 k1 m1 m2).getD j none
            ∧ ∀ r, ((lanc_frame refPos refLab tgtPos k0 k1 m1 m2).getD r none).isSome = true →
                Nat.dist i j ≤ Nat.dist i r)
      ∧ (∀ (labs : Fin 2 → List ℤ) (F : Fin 2 → List (Option ℤ)),
          impute_lanc refPos labs tgtPos = Except.ok F →
          ∀ h : Fin 2, Except.ok (F h) = impute_lanc_track refPos (labs h) tgtPos) := by
  set frame := lanc_frame refPos refLab tgtPos k0 k1 m1 m2 with hframe
  refine ⟨?_, ?_, ?_, ?_, ?_⟩
  · simp only [impute_lanc_track, h0, hn, hk0, hk1, hm1, hm2, hkey, if_true]
    rfl
  · intro k hk1' hk2
    rw [List.getD_eq_getElem?_getD, List.getElem?_take_of_lt hk2,
      List.getElem?_drop]
    have hlen : (interpolate_nearest frame).length = frame.length := by
      simp [interpolate_nearest]
    have hlt : 1 + k < (interpolate_nearest frame).length := by omega
    rw [interpolate_nearest]
    rw [List.getElem?_map]
    rw [List.getElem?_range (by simpa [interpolate_nearest] using hlt)]
    simp [Nat.add_comm 1 k]
  · intro i v hv
    exact interpNearestRow_filled frame i v hv
  · intro i p q hnone hp hq
    exact interpNearestRow_nearest frame i hnone p q hp hq
  · intro labs F hF h
    unfold impute_lanc at hF
    cases ha : impute_lanc_track refPos (labs 0) tgtPos with
    | error e => rw [ha] at hF; exact absurd hF (by simp)
    | ok a =>
        cases hb : impute_lanc_track refPos (labs 1) tgtPos with
        | error e => rw [ha, hb] at hF; exact absurd hF (by simp)
        | ok b =>
            rw [ha, hb] at hF
            have hFval : F = fun h : Fin 2 => if h = 0 then a else b := by
              cases hF'' : hF
              · rfl
            fin_cases h <;> simp [hFval, ha, hb]

/-- Witness for C8 at the counterexample input: the margin lookups succeed
and the call returns the row-index-nearest interpolation of the frame. -/
theorem C8_nearest_is_row_index_witness :
    ([100, 110, 120, 500] : List ℤ).head? = some 100
      ∧ ([100, 110, 120, 500] : List ℤ).getLast? = some 500
      ∧ lastIdxLt [90, 100, 500, 510] 100 = some 0
      ∧ firstIdxGt [90, 100, 500, 510] 500 = some 3
      ∧ ((([90, 100, 500, 510] : List ℤ).drop 0).take (3 + 1 - 0)).head? = some 90
      ∧ ((([90, 100, 500, 510] : List ℤ).drop 0).take (3 + 1 - 0)).getLast? = some 510
      ∧ ((([90, 100, 500, 510] : List ℤ).drop 0).take (3 + 1 - 0)).all
          (fun p => (lanc_row_positions 90 510 [100, 110, 120, 500]).contains p) = true
      ∧ impute_lanc_track [90, 100, 500, 510] [0, 0, 1, 1] [100, 110, 120, 500]
          = Except.ok
              (((interpolate_nearest
                  (lanc_frame [90, 100, 500, 510] [0, 0, 1, 1] [100, 110, 120, 500]
                    0 3 90 510)).drop 1).take
                ([100, 110, 120, 500] : List ℤ).length) :=
  ⟨rfl, by decide, by decide, by decide, by decide, by decide, by decide,
    (C8_nearest_is_row_index [90, 100, 500, 510] [0, 0, 1, 1] [100, 110, 120, 500]
      100 500 0 3 90 510 rfl (by decide) (by decide) (by decide) (by decide)
      (by decide) (by decide)).1⟩

/-- **C9, counterexample**: the spec's own boundary example fails.  With a
reference covering positions `[100, 200, 300]` (per-marker labels
`[0, 1, 1]`), imputing the out-of-range target position `50` does not clamp
to the first interval's label; `np.where(ref_pos < 50)[0][-1]` is an index
into an empty array, so the call fails (IndexError). -/
theorem C9_counterexample :
    impute_lanc [100, 200, 300] (fun _ => [0, 1, 1]) [50]
      = Except.error "IndexError" := by rfl

/-- **C9, amended**: `impute_lanc` requires the reference to extend strictly
beyond the target range on **both** sides: when no reference position is
strictly below the first target position, or no reference position is
strictly above the last target position, the call fails with an IndexError
(`np.where(...)[0][-1]` / `np.where(...)[0][0]` on an empty index array)
instead of clamping to the boundary reference interval. -/
theorem C9_out_of_range_fails (refPos : List ℤ) (refLab : Fin 2 → List ℤ)
    (tgtPos : List ℤ) (t0 tn : ℤ) (h0 : tgtPos.head? = some t0)
    (hn : tgtPos.getLast? = some tn)
    (hout : (∀ p ∈ refPos, ¬(p < t0)) ∨ (∀ p ∈ refPos, ¬(tn < p))) :
    impute_lanc refPos refLab tgtPos = Except.error "IndexError" := by
  have hgetD : ∀ k, k < refPos.length → refPos.getD k 0 ∈ refPos := by
    intro k hk'
    have hgd : refPos.getD k 0 = refPos[k] := by
      rw [List.getD_eq_getElem?_getD, List.getElem?_eq_getElem hk',
        Option.getD_some]
    rw [hgd]
    exact List.getElem_mem hk'
  have htrack : ∀ lab, impute_lanc_track refPos lab tgtPos
      = Except.error "IndexError" := by
    intro lab
    rcases hout with hbelow | habove
    · have hidx : lastIdxLt refPos t0 = none := by
        unfold lastIdxLt
        rw [List.filter_eq_nil_iff.mpr]
        · rfl
        · intro k hk
          simp only [decide_eq_true_eq]
          exact hbelow _ (hgetD k (List.mem_range.mp hk))
      simp only [impute_lanc_track, h0, hn, hidx]
    · have hidx : firstIdxGt refPos tn = none := by
        unfold firstIdxGt
        rw [List.filter_eq_nil_iff.mpr]
        · rfl
        · intro k hk
          simp only [decide_eq_true_eq]
          exact habove _ (hgetD k (List.mem_range.mp hk))
      cases hk0 : lastIdxLt refPos t0 with
      | none => simp only [impute_lanc_track, h0, hn, hk0]
      | some k0 => simp only [impute_lanc_track, h0, hn, hk0, hidx]
  unfold impute_lanc
  rw [htrack (refLab 0), htrack (refLab 1)]

/-- **C2**: with a deterministic injected regression backend, the p-value
vector `marginal` returns is the markerwise p-value map in original marker
order for every valid block count, so any two valid block counts (e.g.
`n_block = 1` and `n_block = 4`) give identical vectors: blocking only splits
the work. -/
theorem C2_block_count_invariance (B : Backends) (nIndiv : ℕ)
    (geno : ℕ → ℕ → Fin 2 → ℚ) (lanc : ℕ → ℕ → Fin 2 → ℤ) (pheno : ℕ → ℚ)
    (covOpt : Option ((ℕ → ℕ → ℚ) × ℕ)) (method : Method) (family : Family)
    (fast : Bool) (nb1 nb2 nSnp : ℕ) (h1 : 1 ≤ nb1) (h2 : nb1 ≤ nSnp)
    (h3 : 1 ≤ nb2) (h4 : nb2 ≤ nSnp) :
    marginal B nIndiv geno lanc pheno covOpt method family fast nb1 nSnp
      = marginal B nIndiv geno lanc pheno covOpt method family fast nb2 nSnp := by
  rw [marginal_eq_pvalue_map B nIndiv geno lanc pheno covOpt method family fast
      nb1 nSnp h1 h2,
    marginal_eq_pvalue_map B nIndiv geno lanc pheno covOpt method family fast
      nb2 nSnp h3 h4]

/-- Witness for C2: `n_block = 1` versus `n_block = 4` on 5 markers (block
size `5 // 4 = 1`), ATT / linear / generic path, with a concrete backend. -/
theorem C2_block_count_invariance_witness :
    1 ≤ 1 ∧ (1 : ℕ) ≤ 5 ∧ 1 ≤ 4 ∧ (4 : ℕ) ≤ 5 ∧
      marginal
          ⟨fun d p _ => ⟨fun c => d 0 c + p 0, fun c => d 1 c, 3, 7⟩,
            fun _ _ _ _ _ => 0, fun _ _ _ _ _ _ _ => 0,
            fun x df => x + df, fun x _ _ => x⟩
          2 (fun s i _ => (s : ℚ) + i) (fun _ _ _ => 0) (fun r => (r : ℚ))
          none Method.ATT Family.linear false 1 5
        = marginal
            ⟨fun d p _ => ⟨fun c => d 0 c + p 0, fun c => d 1 c, 3, 7⟩,
              fun _ _ _ _ _ => 0, fun _ _ _ _ _ _ _ => 0,
              fun x df => x + df, fun x _ _ => x⟩
            2 (fun s i _ => (s : ℚ) + i) (fun _ _ _ => 0) (fun r => (r : ℚ))
            none Method.ATT Family.linear false 4 5 :=
  ⟨by decide, by decide, by decide, by decide,
    C2_block_count_invariance _ 2 _ _ _ none Method.ATT Family.linear false
      1 4 5 (by decide) (by decide) (by decide) (by decide)⟩

/-- **C3, code evidence**: on the fast logistic path the per-marker p-value
is `chi2.sf(2 * lrt_diff, var_size)`, not `chi2.sf(…, len(test_vars))`.
With `var_size = 3`, `test_vars = [0, 1]` (the TRACTOR configuration) and a
`chi2sf` backend returning its df argument, the block test returns `3` — the
df it used — while the claim's formula would use `len(test_vars) = 2`. -/
theorem C3_fast_logistic_df_uses_var_size :
    _block_test
        ⟨fun _ _ _ => ⟨fun _ => 0, fun _ => 0, 0, 0⟩, fun _ _ _ _ _ => 0,
          fun _ _ _ _ _ _ _ => 0, fun _ df => df, fun _ _ _ => 0⟩
        4 (fun _ _ => 0) 3 (fun _ _ => 0) 1 (fun _ => 0) 3 [0, 1] true
        Family.logistic 100 (1 / 1000000)
      = [3]
    ∧ (([0, 1] : List ℕ).length : ℚ) = 2
    ∧ (3 : ℚ) ≠ 2 := by
  refine ⟨?_, by norm_num, by norm_num⟩
  norm_num [_block_test, marker_pvalue]

/-- **C10**: for `1 ≤ n_block ≤ n_snp` the block loop of `marginal`
terminates within fuel `n_snp` and yields exactly `n_snp` p-values, marker
`s` tested exactly once (entry `s` of the markerwise map); with
`n_snp < n_block` the block size `n_snp // n_block` is `0`, the loop makes
no progress, and no amount of fuel finishes it. -/
theorem C10_block_loop_termination (B : Backends) (nIndiv : ℕ)
    (geno : ℕ → ℕ → Fin 2 → ℚ) (lanc : ℕ → ℕ → Fin 2 → ℤ) (pheno : ℕ → ℚ)
    (covOpt : Option ((ℕ → ℕ → ℚ) × ℕ)) (method : Method) (family : Family)
    (fast : Bool) (nBlock nSnp : ℕ) (h1 : 1 ≤ nBlock) :
    (nBlock ≤ nSnp →
        marginal B nIndiv geno lanc pheno covOpt method family fast nBlock nSnp
            = some ((List.range nSnp).map fun s =>
                marker_pvalue B nIndiv (marginal_cov covOpt).2
                  (marginal_cov covOpt).1 pheno
                  (marginal_var geno lanc method).2.1
                  (marginal_var geno lanc method).2.2 fast family 100
                  (1 / 1000000)
                  (fun r c =>
                    (marginal_var geno lanc method).1 r
                      (s * (marginal_var geno lanc method).2.1 + c)))
          ∧ ((List.range nSnp).map fun s =>
                marker_pvalue B nIndiv (marginal_cov covOpt).2
                  (marginal_cov covOpt).1 pheno
                  (marginal_var geno lanc method).2.1
                  (marginal_var geno lanc method).2.2 fast family 100
                  (1 / 1000000)
                  (fun r c =>
                    (marginal_var geno lanc method).1 r
                      (s * (marginal_var geno lanc method).2.1 + c))).length
              = nSnp)
      ∧ (0 < nSnp → nSnp < nBlock →
          marginal B nIndiv geno lanc pheno covOpt method family fast nBlock nSnp
              = none
            ∧ ∀ fuel,
                marginal_loop B nIndiv (marginal_var geno lanc method).1
                    (marginal_cov covOpt).1 (marginal_cov covOpt).2 pheno
                    (marginal_var geno lanc method).2.1
                    (marginal_var geno lanc method).2.2 fast family nSnp
                    (nSnp / nBlock) fuel 0
                  = none) := by
  constructor
  · intro h2
    exact ⟨marginal_eq_pvalue_map B nIndiv geno lanc pheno covOpt method family
        fast nBlock nSnp h1 h2, by simp⟩
  · intro hpos hgt
    have hbs0 : nSnp / nBlock = 0 := Nat.div_eq_of_lt hgt
    constructor
    · simp only [marginal, hbs0]
      exact marginal_loop_stuck B nIndiv _ _ _ pheno _ _ fast family nSnp
        hpos nSnp
    · intro fuel
      rw [hbs0]
      exact marginal_loop_stuck B nIndiv _ _ _ pheno _ _ fast family nSnp
        hpos fuel

/-- Witness for C10: 3 markers; `n_block = 2` terminates with 3 p-values;
`n_block = 4 > 3` never terminates (shown at fuel 3, the fuel `marginal`
allots). -/
theorem C10_block_loop_termination_witness :
    (1 : ℕ) ≤ 2 ∧ (2 : ℕ) ≤ 3 ∧ (1 : ℕ) ≤ 4 ∧ (0 : ℕ) < 3 ∧ (3 : ℕ) < 4 ∧
      ((List.range 3).map fun s =>
          marker_pvalue
            ⟨fun _ _ _ => ⟨fun _ => 0, fun _ => 0, 0, 0⟩, fun _ _ _ _ _ => 0,
              fun _ _ _ _ _ _ _ => 0, fun _ _ => 0, fun _ _ _ => 0⟩
            2 (marginal_cov none).2 (marginal_cov none).1 (fun r => (r : ℚ))
            (marginal_var (fun s i _ => (s : ℚ) + i) (fun _ _ _ => 0)
              Method.ATT).2.1
            (marginal_var (fun s i _ => (s : ℚ) + i) (fun _ _ _ => 0)
              Method.ATT).2.2 false Family.linear 100 (1 / 1000000)
            (fun r c =>
              (marginal_var (fun s i _ => (s : ℚ) + i) (fun _ _ _ => 0)
                Method.ATT).1 r
                (s * (marginal_var (fun s i _ => (s : ℚ) + i) (fun _ _ _ => 0)
                  Method.ATT).2.1 + c))).length = 3 ∧
      marginal
          ⟨fun _ _ _ => ⟨fun _ => 0, fun _ => 0, 0, 0⟩, fun _ _ _ _ _ => 0,
            fun _ _ _ _ _ _ _ => 0, fun _ _ => 0, fun _ _ _ => 0⟩
          2 (fun s i _ => (s : ℚ) + i) (fun _ _ _ => 0) (fun r => (r : ℚ))
          none Method.ATT Family.linear false 4 3
        = none :=
  ⟨by decide, by decide, by decide, by decide, by decide,
    ((C10_block_loop_termination _ 2 _ _ _ none Method.ATT Family.linear false
        2 3 (by decide)).1 (by decide)).2,
    ((C10_block_loop_termination _ 2 _ _ _ none Method.ATT Family.linear false
        4 3 (by decide)).2 (by decide) (by decide)).1⟩

/-- Witness for C9 (amended), both boundary sides with the spec's reference
`[100, 200, 300]`: target `50` lies before the first reference position,
target `350` lies after the last; each call raises IndexError. -/
theorem C9_out_of_range_fails_witness :
    ([50] : List ℤ).head? = some 50
      ∧ ([50] : List ℤ).getLast? = some 50
      ∧ (∀ p ∈ ([100, 200, 300] : List ℤ), ¬(p < 50))
      ∧ impute_lanc [100, 200, 300] (fun _ => [0, 1, 1]) [50]
          = Except.error "IndexError"
      ∧ ([350] : List ℤ).head? = some 350
      ∧ ([350] : List ℤ).getLast? = some 350
      ∧ (∀ p ∈ ([100, 200, 300] : List ℤ), ¬((350 : ℤ) < p))
      ∧ impute_lanc [100, 200, 300] (fun _ => [0, 1, 1]) [350]
          = Except.error "IndexError" :=
  ⟨rfl, by decide, by decide,
    C9_out_of_range_fails [100, 200, 300] (fun _ => [0, 1, 1]) [50] 50 50
      rfl (by decide) (Or.inl (by decide)),
    rfl, by decide, by decide,
    C9_out_of_range_fails [100, 200, 300] (fun _ => [0, 1, 1]) [350] 350 350
      rfl (by decide) (Or.inr (by decide))⟩

end AdmixKitClaims
